import Mathlib

/-!
Shallow embedding of `src/model/src/model.rs` from logreduce/logreduce-rust.

Rust strings (`str`, `PathBuf`, `url::Url`) are modelled as `List Char`;
byte offsets are modelled at character granularity, so the
"character boundary" condition of the `prefix_len` invariant is automatic
and the invariant reduces to the offset not exceeding the string length.
`anyhow::Error` is modelled as a message string.  External collaborators
that live in the crate's other modules (files, process, urls, zuul) or in
third-party crates are taken as explicit function parameters, so each
theorem quantifies over every possible behaviour of those collaborators.
Process termination via `expect`/slice panics is modelled by the
`POutcome.panicked` constructor (for the explicit `expect` sites) and by
`Option` (for the slice in `get_relative`).
-/

namespace Logreduce

/-- Rust string contents, at character granularity. -/
abbrev RStr := List Char

/-- Model of `anyhow::Error`: just the message. -/
abbrev Err := String

/-- The user input (`enum Input`). -/
inductive Input where
  | Path : RStr → Input
  | Url : RStr → Input
deriving DecidableEq

/-- Model of `Input::from_string`: a string beginning with "http" is a Url. -/
def Input.from_string (s : RStr) : Input :=
  if List.isPrefixOf "http".toList s then Input.Url s else Input.Path s

/-- The location of the log lines and the relative prefix length
(`enum Source { Local(usize, PathBuf), Remote(usize, Url) }`). -/
inductive Source where
  | Local : Nat → RStr → Source
  | Remote : Nat → RStr → Source
deriving DecidableEq

/-- The base-prefix length stored in a Source. -/
def Source.base_len : Source → Nat
  | Source.Local n _ => n
  | Source.Remote n _ => n

/-- Model of `Source::as_str`: the full underlying path/url string
(`path.to_str().unwrap_or("")` is modelled by assuming UTF-8 paths). -/
def Source.as_str : Source → RStr
  | Source.Local _ path => path
  | Source.Remote _ url => url

/-- Model of `Source::get_relative`: Rust slices `&s[base_len..]`, which
panics when the offset exceeds the string; `none` models that panic. -/
def Source.get_relative : Source → Option RStr
  | Source.Local n path => if n ≤ path.length then some (path.drop n) else none
  | Source.Remote n url => if n ≤ url.length then some (url.drop n) else none

/-- Modelled from the spec: "the relative identity equals the substring of
`path` starting at `prefix_len`" — the spec-side right-hand side of the
`get_relative` claim. -/
def substringFrom (s : RStr) (n : Nat) : RStr := s.drop n

/-- The extension blacklist of `Source::is_valid`. -/
def invalidExts : List RStr :=
  [".ico".toList, ".png".toList, ".clf".toList, ".sqlite".toList]

/-- Model of `Source::is_valid`: every blacklisted extension must fail to be
a suffix of the full `as_str` string. -/
def Source.is_valid (src : Source) : Bool :=
  invalidExts.all (fun ext => !(List.isSuffixOf ext src.as_str))

/-- Whether a string ends with one of the blacklisted extensions (the
spec-side notion used to state the `is_valid` claims). -/
def extEndsAny (s : RStr) : Bool :=
  invalidExts.any (fun ext => List.isSuffixOf ext s)

/-- A LogModelName identifier used to group similar sources
(`struct IndexName(String)`). -/
structure IndexName where
  name : RStr
deriving DecidableEq

/-- A source of log lines (`enum Content`); the Zuul build type lives in the
crate's `zuul` module (not under `src/`), so it is a type parameter. -/
inductive Content (B : Type) where
  | File : Source → Content B
  | Directory : Source → Content B
  | Zuul : B → Content B

/-- A chunk index (`enum ChunkIndex`); `FeaturesMatrix` is owned by the
external `logreduce_index` crate, so it is a type parameter. -/
inductive ChunkIndex (M : Type) where
  | HashingTrick : List M → ChunkIndex M
  | Noop : ChunkIndex M

/-- A trained index (`struct Index`); wall-clock durations are modelled
as `Nat`. -/
structure Index (M : Type) where
  train_time : Nat
  index : ChunkIndex M

/-- An anomaly (`struct Anomaly`). -/
structure Anomaly where
  distance : Float
  pos : Nat
  line : RStr

/-- An anomaly with its surrounding context (`struct AnomalyContext`). -/
structure AnomalyContext where
  before : List RStr
  anomaly : Anomaly
  after : List RStr

/-- The per-source report (`struct LogReport`). -/
structure LogReport where
  test_time : Nat
  anomalies : List AnomalyContext

/-- The final report (`struct Report`). -/
structure Report where
  created_at : Nat
  targets : List LogReport

/-- The model (`struct Model`): creation time, baselines, and the
IndexName → Index map, modelled as an association list with distinct keys
(the build order of `Model::train` never inserts a key twice). -/
structure Model (B M : Type) where
  created_at : Nat
  baselines : List (Content B)
  indexes : List (IndexName × Index M)

/-- The outcome of an operation that may also terminate the process:
`panicked` models `expect`/`panic!`-style termination, `err` a typed
`anyhow` error. -/
inductive POutcome (α : Type) where
  | ok : α → POutcome α
  | err : Err → POutcome α
  | panicked : Err → POutcome α

/-- Whether an outcome is a process termination. -/
def POutcome.isPanic : POutcome α → Bool
  | POutcome.panicked _ => true
  | _ => false

/-- Lifting a typed result into an outcome: typed errors never panic. -/
def liftE : Except Err α → POutcome α
  | Except.ok a => POutcome.ok a
  | Except.error e => POutcome.err e

/-- Model of `collect::<Result<Vec<_>>>()`: the first error aborts. -/
def collectExcept : List (Except Err α) → Except Err (List α)
  | [] => Except.ok []
  | Except.error e :: _ => Except.error e
  | Except.ok a :: rest =>
    match collectExcept rest with
    | Except.error e => Except.error e
    | Except.ok as_ => Except.ok (a :: as_)

/-- The filter predicate of `Content::get_sources`: errors are kept
(`unwrap_or(true)`), sources are kept when `is_valid`. -/
def keepSource : Except Err Source → Bool
  | Except.ok s => s.is_valid
  | Except.error _ => true

/-- Model of `Content::get_sources`.  The enumeration of leaf sources
(`get_sources_iter`, whose concrete iterators live in the crate's
files/urls/zuul modules, not under `src/`) is the parameter `enum_`. -/
def get_sources {B : Type} (enum_ : Content B → List (Except Err Source))
    (c : Content B) : Except Err (List Source) :=
  match collectExcept ((enum_ c).filter keepSource) with
  | Except.error e => Except.error e
  | Except.ok srcs =>
    if srcs.isEmpty then Except.error "Empty discovered baselines"
    else Except.ok srcs

/-- The IndexName → sources grouping built by `Content::group_sources`,
modelled as an association list. -/
abbrev Groups := List (IndexName × List Source)

/-- Association-list lookup, modelling `HashMap::get`. -/
def hmGet {K V : Type} [DecidableEq K] : List (K × V) → K → Option V
  | [], _ => none
  | (k', v) :: rest, k => if k' = k then some v else hmGet rest k

/-- The sources stored for a group key (empty when absent). -/
def groupGet (gs : Groups) (g : IndexName) : List Source :=
  (hmGet gs g).getD []

/-- Model of `groups.entry(k).or_insert_with(Vec::new).push(s)`. -/
def pushGroup : Groups → IndexName → Source → Groups
  | [], k, s => [(k, [s])]
  | (k', l) :: rest, k, s =>
    if k' = k then (k', l ++ [s]) :: rest
    else (k', l) :: pushGroup rest k s

/-- Folding one content's sources into the grouping. -/
def groupInto (keyOf : Source → IndexName) (acc : Groups)
    (srcs : List Source) : Groups :=
  srcs.foldl (fun a s => pushGroup a (keyOf s) s) acc

/-- The loop of `Content::group_sources` over the baseline contents.
`keyOf` models `IndexName::from_source` (whose normalisation
`IndexName::from_path` lives in a module not under `src/`). -/
def group_sourcesAux {B : Type} (enum_ : Content B → List (Except Err Source))
    (keyOf : Source → IndexName) :
    List (Content B) → Groups → Except Err Groups
  | [], acc => Except.ok acc
  | c :: cs, acc =>
    match get_sources enum_ c with
    | Except.error e => Except.error e
    | Except.ok srcs => group_sourcesAux enum_ keyOf cs (groupInto keyOf acc srcs)

/-- Model of `Content::group_sources`. -/
def Content.group_sources {B : Type} (enum_ : Content B → List (Except Err Source))
    (keyOf : Source → IndexName) (baselines : List (Content B)) : Except Err Groups :=
  group_sourcesAux enum_ keyOf baselines []

/-- All sources produced by a list of contents, in encounter order (the
reference list for the partition claim). -/
def contentsSources {B : Type} (enum_ : Content B → List (Except Err Source)) :
    List (Content B) → Except Err (List Source)
  | [] => Except.ok []
  | c :: cs =>
    match get_sources enum_ c with
    | Except.error e => Except.error e
    | Except.ok srcs =>
      match contentsSources enum_ cs with
      | Except.error e => Except.error e
      | Except.ok rest => Except.ok (srcs ++ rest)

/-- Model of the `lookup_or_single` helper: exact lookup first, otherwise
the unique value when the map has exactly one entry. -/
def lookup_or_single {K V : Type} [DecidableEq K]
    (hm : List (K × V)) (k : K) : Option V :=
  match hmGet hm k with
  | some v => some v
  | none =>
    match hm.map Prod.snd with
    | [v] => some v
    | _ => none

/-- Model of `Model::get_index` with the key computation
(`IndexName::from_source`, whose normalisation lives outside `src/` and
whose `get_relative` slice can panic) abstracted as the total parameter
`keyOf` — used by the claims conditioned on the key computation
succeeding; `Model.get_index_full` below models the slice panic. -/
def Model.get_index {B M : Type} (keyOf : Source → IndexName)
    (m : Model B M) (source : Source) : Option (Index M) :=
  lookup_or_single m.indexes (keyOf source)

/-- Dispatch of source opening (`Source::file_open` / `Source::url_open`,
which live in modules not under `src/`): the parameters `fileOpen` and
`urlOpen` model them, `O` is the opened-handle type. -/
def sourceOpen {O : Type} (fileOpen : RStr → Except Err O)
    (urlOpen : Nat → RStr → Except Err O) : Source → Except Err O
  | Source.Local _ path => fileOpen path
  | Source.Remote n url => urlOpen n url

/-- Model of `Index::inspect`: open the source; on success run the external
`ChunkProcessor` (parameter `procC`, a finite sequence of results), on
failure the sequence is the single open error. -/
def Index.inspect {M O : Type} (fileOpen : RStr → Except Err O)
    (urlOpen : Nat → RStr → Except Err O)
    (procC : O → ChunkIndex M → List (Except Err AnomalyContext))
    (idx : Index M) (source : Source) : List (Except Err AnomalyContext) :=
  match source with
  | Source.Local _ path =>
    match fileOpen path with
    | Except.ok fp => procC fp idx.index
    | Except.error e => [Except.error e]
  | Source.Remote n url =>
    match urlOpen n url with
    | Except.ok fp => procC fp idx.index
    | Except.error e => [Except.error e]

/-- Model of `Content::from_input`.  `fromPath`/`fromUrl` model the
constructors in the crate's files/urls modules (typed results), `parseUrl`
models `url::Url::parse`; a parse failure hits the `expect` and panics. -/
def Content.from_input {B : Type} (fromPath : RStr → Except Err (Content B))
    (fromUrl : RStr → Except Err (Content B))
    (parseUrl : RStr → Option RStr) (input : Input) : POutcome (Content B) :=
  match input with
  | Input.Path path_str => liftE (fromPath path_str)
  | Input.Url url_str =>
    match parseUrl url_str with
    | some u => liftE (fromUrl u)
    | none => POutcome.panicked "Failed to parse url"

/-- The per-source loop of `Model::report`: a missing index hits
`expect("Missing baselines")` (panic); an error among the inspection
results propagates as a typed error via `?`; a source with no anomalies
contributes nothing.  Wall-clock times are modelled as 0. -/
def reportGo {B M O : Type} (fileOpen : RStr → Except Err O)
    (urlOpen : Nat → RStr → Except Err O)
    (procC : O → ChunkIndex M → List (Except Err AnomalyContext))
    (keyOf : Source → IndexName) (m : Model B M) :
    List Source → List LogReport → POutcome Report
  | [], acc => POutcome.ok { created_at := 0, targets := acc }
  | s :: rest, acc =>
    match Model.get_index keyOf m s with
    | none => POutcome.panicked "Missing baselines"
    | some idx =>
      match collectExcept (Index.inspect fileOpen urlOpen procC idx s) with
      | Except.error e => POutcome.err e
      | Except.ok anomalies =>
        reportGo fileOpen urlOpen procC keyOf m rest
          (if anomalies.isEmpty then acc
           else acc ++ [{ test_time := 0, anomalies := anomalies }])

/-- Model of `Model::report`. -/
def Model.report {B M O : Type} (fileOpen : RStr → Except Err O)
    (urlOpen : Nat → RStr → Except Err O)
    (procC : O → ChunkIndex M → List (Except Err AnomalyContext))
    (enum_ : Content B → List (Except Err Source))
    (keyOf : Source → IndexName) (m : Model B M) (target : Content B) :
    POutcome Report :=
  match get_sources enum_ target with
  | Except.error e => POutcome.err e
  | Except.ok sources => reportGo fileOpen urlOpen procC keyOf m sources []

/-- Model of `IndexName::from_source`: the normalisation
`IndexName::from_path` (in a module not under `src/`) applied to
`get_relative`'s result; the slice panic of `get_relative` propagates, so
the result is `none` exactly when the slice would panic. -/
def IndexName.from_source (from_path : RStr → IndexName) (src : Source) :
    Option IndexName :=
  (Source.get_relative src).map from_path

/-- Model of `Model::get_index` with the relative-identity slice panic made
explicit: computing the source's IndexName via `IndexName::from_source` can
panic inside `get_relative` before the lookup runs (`panicked`); otherwise
the result is the `lookup_or_single` lookup.  The `keyOf`-parameter variant
`Model.get_index` above abstracts the key computation as a total function
and is used by the claims whose content is conditioned on the key
computation succeeding; `get_index_full_agrees` relates the two. -/
def Model.get_index_full {B M : Type} (from_path : RStr → IndexName)
    (m : Model B M) (source : Source) : POutcome (Option (Index M)) :=
  match IndexName.from_source from_path source with
  | none => POutcome.panicked "byte index out of bounds"
  | some nm => POutcome.ok (lookup_or_single m.indexes nm)

/-- The per-source loop of `Model::report` with the slice panic of the
index lookup made explicit: a slice panic inside `get_index` terminates
first; a `None` index then hits `expect("Missing baselines")`; an error
among the inspection results propagates as a typed error via `?`. -/
def reportGo_full {B M O : Type} (fileOpen : RStr → Except Err O)
    (urlOpen : Nat → RStr → Except Err O)
    (procC : O → ChunkIndex M → List (Except Err AnomalyContext))
    (from_path : RStr → IndexName) (m : Model B M) :
    List Source → List LogReport → POutcome Report
  | [], acc => POutcome.ok { created_at := 0, targets := acc }
  | s :: rest, acc =>
    match Model.get_index_full from_path m s with
    | POutcome.panicked e => POutcome.panicked e
    | POutcome.err e => POutcome.err e
    | POutcome.ok none => POutcome.panicked "Missing baselines"
    | POutcome.ok (some idx) =>
      match collectExcept (Index.inspect fileOpen urlOpen procC idx s) with
      | Except.error e => POutcome.err e
      | Except.ok anomalies =>
        reportGo_full fileOpen urlOpen procC from_path m rest
          (if anomalies.isEmpty then acc
           else acc ++ [{ test_time := 0, anomalies := anomalies }])

/-- Model of `Model::report` with the slice panic made explicit (the
`keyOf` variant `Model.report` above abstracts the key computation). -/
def Model.report_full {B M O : Type} (fileOpen : RStr → Except Err O)
    (urlOpen : Nat → RStr → Except Err O)
    (procC : O → ChunkIndex M → List (Except Err AnomalyContext))
    (enum_ : Content B → List (Except Err Source))
    (from_path : RStr → IndexName) (m : Model B M) (target : Content B) :
    POutcome Report :=
  match get_sources enum_ target with
  | Except.error e => POutcome.err e
  | Except.ok sources => reportGo_full fileOpen urlOpen procC from_path m sources []

/-- Model of `noop_index::search`: a zero distance per target line. -/
def noop_search (targets : List RStr) : List Float :=
  List.replicate targets.length 0.0

/-- Model of `ChunkIndex::search`; the hashing-trick search
(`logreduce_index::search_mat_chunk`) is the parameter `searchMat`. -/
def ChunkIndex.search {M : Type} (searchMat : List M → List RStr → List Float) :
    ChunkIndex M → List RStr → List Float
  | ChunkIndex.HashingTrick ms, targets => searchMat ms targets
  | ChunkIndex.Noop, targets => noop_search targets

/-- The per-group training loop of `Model::train`; `Index::train` drives the
external `ChunkTrainer`, so it is the parameter `trainIdx`, and `mk` models
the `mk_index` factory. -/
def trainAll {M : Type} (trainIdx : List Source → ChunkIndex M → Except Err (Index M))
    (mk : Unit → ChunkIndex M) : Groups → Except Err (List (IndexName × Index M))
  | [] => Except.ok []
  | (k, srcs) :: rest =>
    match trainIdx srcs (mk ()) with
    | Except.error e => Except.error e
    | Except.ok idx =>
      match trainAll trainIdx mk rest with
      | Except.error e => Except.error e
      | Except.ok idxs => Except.ok ((k, idx) :: idxs)

/-- Model of `Model::train`; `now` models `SystemTime::now()`. -/
def Model.train {B M : Type} (enum_ : Content B → List (Except Err Source))
    (keyOf : Source → IndexName)
    (trainIdx : List Source → ChunkIndex M → Except Err (Index M))
    (mk : Unit → ChunkIndex M) (now : Nat) (baselines : List (Content B)) :
    Except Err (Model B M) :=
  match Content.group_sources enum_ keyOf baselines with
  | Except.error e => Except.error e
  | Except.ok groups =>
    match trainAll trainIdx mk groups with
    | Except.error e => Except.error e
    | Except.ok idxs =>
      Except.ok { created_at := now, baselines := baselines, indexes := idxs }

/-! ### Persistence (`Model::save` / `Model::load`)

Modelled from the spec: §4.2 and §6 — the whole Model is serialized into a
single binary artifact (bincode) compressed with a fast general-purpose
compressor (flate2) and written to the filesystem; loading reverses the
pipeline.  The filesystem, the bincode crate and the flate2 crate are all
outside `src/`, so: the filesystem is a path → bytes store, the structural
(derived) serialization of the repo's own types is made concrete as a
token-stream codec below, and the codecs of the two external leaf types
(`zuul::Build`, `FeaturesMatrix`) and the compressor are parameters whose
round-trip contracts appear as hypotheses of the round-trip theorem. -/

/-- One serialization token: a tagged number or a string payload. -/
inductive Tok where
  | nat : Nat → Tok
  | str : RStr → Tok

/-- A serialized token stream. -/
abbrev Toks := List Tok

/-- Length-prefixed list encoding. -/
def encListT {α : Type} (encA : α → Toks) (l : List α) : Toks :=
  Tok.nat l.length :: (l.map encA).flatten

/-- Decoding a known number of elements. -/
def decListN {α : Type} (decA : Toks → Option (α × Toks)) :
    Nat → Toks → Option (List α × Toks)
  | 0, rest => some ([], rest)
  | n + 1, rest =>
    match decA rest with
    | none => none
    | some (a, rest') =>
      match decListN decA n rest' with
      | none => none
      | some (l, rest'') => some (a :: l, rest'')

/-- Length-prefixed list decoding. -/
def decListT {α : Type} (decA : Toks → Option (α × Toks)) :
    Toks → Option (List α × Toks)
  | Tok.nat n :: rest => decListN decA n rest
  | _ => none

/-- Encoding of a `Source`. -/
def encSource : Source → Toks
  | Source.Local n path => [Tok.nat 0, Tok.nat n, Tok.str path]
  | Source.Remote n url => [Tok.nat 1, Tok.nat n, Tok.str url]

/-- Decoding of a `Source`. -/
def decSource : Toks → Option (Source × Toks)
  | Tok.nat 0 :: Tok.nat n :: Tok.str path :: rest => some (Source.Local n path, rest)
  | Tok.nat 1 :: Tok.nat n :: Tok.str url :: rest => some (Source.Remote n url, rest)
  | _ => none

/-- Encoding of a `Content`, given a codec for the external Build type. -/
def encContent {B : Type} (encB : B → Toks) : Content B → Toks
  | Content.File s => Tok.nat 0 :: encSource s
  | Content.Directory s => Tok.nat 1 :: encSource s
  | Content.Zuul b => Tok.nat 2 :: encB b

/-- Decoding of a `Content`. -/
def decContent {B : Type} (decB : Toks → Option (B × Toks)) :
    Toks → Option (Content B × Toks)
  | Tok.nat 0 :: rest =>
    match decSource rest with
    | none => none
    | some (s, rest') => some (Content.File s, rest')
  | Tok.nat 1 :: rest =>
    match decSource rest with
    | none => none
    | some (s, rest') => some (Content.Directory s, rest')
  | Tok.nat 2 :: rest =>
    match decB rest with
    | none => none
    | some (b, rest') => some (Content.Zuul b, rest')
  | _ => none

/-- Encoding of a `ChunkIndex`, given a codec for the external matrices. -/
def encChunkIndex {M : Type} (encM : M → Toks) : ChunkIndex M → Toks
  | ChunkIndex.HashingTrick ms => Tok.nat 0 :: encListT encM ms
  | ChunkIndex.Noop => [Tok.nat 1]

/-- Decoding of a `ChunkIndex`. -/
def decChunkIndex {M : Type} (decM : Toks → Option (M × Toks)) :
    Toks → Option (ChunkIndex M × Toks)
  | Tok.nat 0 :: rest =>
    match decListT decM rest with
    | none => none
    | some (ms, rest') => some (ChunkIndex.HashingTrick ms, rest')
  | Tok.nat 1 :: rest => some (ChunkIndex.Noop, rest)
  | _ => none

/-- Encoding of an `Index`. -/
def encIndex {M : Type} (encM : M → Toks) (i : Index M) : Toks :=
  Tok.nat i.train_time :: encChunkIndex encM i.index

/-- Decoding of an `Index`. -/
def decIndex {M : Type} (decM : Toks → Option (M × Toks)) :
    Toks → Option (Index M × Toks)
  | Tok.nat t :: rest =>
    match decChunkIndex decM rest with
    | none => none
    | some (ci, rest') => some ({ train_time := t, index := ci }, rest')
  | _ => none

/-- Encoding of one map entry. -/
def encEntry {M : Type} (encM : M → Toks) (e : IndexName × Index M) : Toks :=
  Tok.str e.1.name :: encIndex encM e.2

/-- Decoding of one map entry. -/
def decEntry {M : Type} (decM : Toks → Option (M × Toks)) :
    Toks → Option ((IndexName × Index M) × Toks)
  | Tok.str nm :: rest =>
    match decIndex decM rest with
    | none => none
    | some (i, rest') => some ((⟨nm⟩, i), rest')
  | _ => none

/-- Encoding of a whole `Model`. -/
def encModel {B M : Type} (encB : B → Toks) (encM : M → Toks)
    (m : Model B M) : Toks :=
  Tok.nat m.created_at :: (encListT (encContent encB) m.baselines
    ++ encListT (encEntry encM) m.indexes)

/-- Decoding of a whole `Model`. -/
def decModel {B M : Type} (decB : Toks → Option (B × Toks))
    (decM : Toks → Option (M × Toks)) : Toks → Option (Model B M × Toks)
  | Tok.nat t :: rest =>
    match decListT (decContent decB) rest with
    | none => none
    | some (bs, rest') =>
      match decListT (decEntry decM) rest' with
      | none => none
      | some (idxs, rest'') =>
        some ({ created_at := t, baselines := bs, indexes := idxs }, rest'')
  | _ => none

/-- The filesystem, modelled as a path → bytes store. -/
abbrev Store (Bytes : Type) := List (RStr × Bytes)

/-- Model of `Model::save`: serialize, compress (`gz`), write at `path`. -/
def Model.save {B M Bytes : Type} (gz : Toks → Bytes) (encB : B → Toks)
    (encM : M → Toks) (m : Model B M) (store : Store Bytes) (path : RStr) :
    Store Bytes :=
  (path, gz (encModel encB encM m)) :: store

/-- Model of `Model::load`: read at `path`, decompress (`gunz`),
deserialize; each failure is the corresponding typed error. -/
def Model.load {B M Bytes : Type} (gunz : Bytes → Option Toks)
    (decB : Toks → Option (B × Toks)) (decM : Toks → Option (M × Toks))
    (store : Store Bytes) (path : RStr) : Except Err (Model B M) :=
  match hmGet store path with
  | none => Except.error "Can't open file"
  | some bs =>
    match gunz bs with
    | none => Except.error "Can't load model"
    | some toks =>
      match decModel decB decM toks with
      | none => Except.error "Can't load model"
      | some (m, _) => Except.ok m

/-! ### Theorems -/

/-- Helper: an inspection whose open fails is the single open error. -/
theorem inspect_of_open_error {M O : Type} (fileOpen : RStr → Except Err O)
    (urlOpen : Nat → RStr → Except Err O)
    (procC : O → ChunkIndex M → List (Except Err AnomalyContext))
    (idx : Index M) (src : Source) (e : Err)
    (h : sourceOpen fileOpen urlOpen src = Except.error e) :
    Index.inspect fileOpen urlOpen procC idx src = [Except.error e] := by
  cases src with
  | Local n path =>
    simp only [sourceOpen] at h
    simp [Index.inspect, h]
  | Remote n url =>
    simp only [sourceOpen] at h
    simp [Index.inspect, h]

/-- Claim C7: for every Source whose prefix length satisfies the validity
invariant (it does not exceed the length of the underlying path or url
string; at character granularity every such offset is a boundary), the
relative identity returned by get_relative equals the substring of the
path/url starting at that offset. -/
theorem get_relative_substring (src : Source)
    (h : src.base_len ≤ src.as_str.length) :
    src.get_relative = some (substringFrom src.as_str src.base_len) := by
  cases src with
  | Local n path =>
    simp only [Source.base_len, Source.as_str] at h
    simp [Source.get_relative, substringFrom, Source.as_str, Source.base_len, h]
  | Remote n url =>
    simp only [Source.base_len, Source.as_str] at h
    simp [Source.get_relative, substringFrom, Source.as_str, Source.base_len, h]

/-- Witness for C7 at a concrete source. -/
theorem get_relative_substring_witness :
    (Source.Local 1 "ab".toList).base_len ≤ (Source.Local 1 "ab".toList).as_str.length ∧
    (Source.Local 1 "ab".toList).get_relative =
      some (substringFrom (Source.Local 1 "ab".toList).as_str
        (Source.Local 1 "ab".toList).base_len) :=
  ⟨by decide, get_relative_substring (Source.Local 1 "ab".toList) (by decide)⟩

/-- Helper: a conjunction of negations is the negation of a disjunction,
for Bool-valued list predicates. -/
theorem all_not_eq_not_any {α : Type} (p : α → Bool) :
    ∀ l : List α, (l.all fun x => !p x) = !(l.any p) := by
  intro l
  induction l with
  | nil => rfl
  | cons a t ih => simp [List.all_cons, List.any_cons, ih, Bool.not_or]

/-- Claim C3 (amended): Source.is_valid is false iff the full underlying
string (as_str, the absolute path or url) ends with one of the blacklisted
extensions — the decision is taken on the full string, not on the relative
identity. -/
theorem is_valid_full_string (src : Source) :
    src.is_valid = false ↔ extEndsAny src.as_str = true := by
  have key : src.is_valid = !(extEndsAny src.as_str) :=
    all_not_eq_not_any (fun ext => List.isSuffixOf ext src.as_str) invalidExts
  rw [key]
  cases extEndsAny src.as_str <;> simp

/-- Witness for C3's amended theorem at a concrete source. -/
theorem is_valid_full_string_witness :
    (Source.Local 0 "x.png".toList).is_valid = false :=
  (is_valid_full_string (Source.Local 0 "x.png".toList)).mpr (by decide)

/-- Counterexample to claim C3 as stated: for the source Local 3 "a.ico"
the relative identity is "co", which ends with none of the blacklisted
extensions, yet is_valid is false (the code checks the full string). -/
theorem is_valid_relative_cex :
    (Source.Local 3 "a.ico".toList).is_valid = false ∧
    (Source.Local 3 "a.ico".toList).get_relative = some "co".toList ∧
    extEndsAny "co".toList = false := by decide

/-- Claim C6: for every Index and Source, if opening the Source fails then
Index.inspect returns a sequence that is exactly the one-element sequence
holding the open error. -/
theorem inspect_open_error {M O : Type} (fileOpen : RStr → Except Err O)
    (urlOpen : Nat → RStr → Except Err O)
    (procC : O → ChunkIndex M → List (Except Err AnomalyContext))
    (idx : Index M) (src : Source) (e : Err)
    (h : sourceOpen fileOpen urlOpen src = Except.error e) :
    Index.inspect fileOpen urlOpen procC idx src = [Except.error e] :=
  inspect_of_open_error fileOpen urlOpen procC idx src e h

/-- Witness for C6 at a concrete failing open. -/
theorem inspect_open_error_witness :
    sourceOpen (fun (_ : RStr) => (Except.error "boom" : Except Err Unit))
        (fun _ _ => Except.error "boom") (Source.Local 0 ['a']) =
      Except.error "boom" ∧
    Index.inspect (fun (_ : RStr) => (Except.error "boom" : Except Err Unit))
        (fun _ _ => Except.error "boom")
        (fun _ (_ : ChunkIndex Unit) => [])
        ⟨0, ChunkIndex.Noop⟩ (Source.Local 0 ['a']) = [Except.error "boom"] :=
  ⟨rfl, inspect_open_error (fun _ => Except.error "boom")
    (fun _ _ => Except.error "boom") (fun _ _ => [])
    ⟨0, ChunkIndex.Noop⟩ (Source.Local 0 ['a']) "boom" rfl⟩

/-- Claim C8: on the Noop variant, search returns one distance per target
line and every distance is zero. -/
theorem noop_search_zero {M : Type} (searchMat : List M → List RStr → List Float)
    (targets : List RStr) (_h : targets ≠ []) :
    (ChunkIndex.search searchMat ChunkIndex.Noop targets).length = targets.length ∧
    ∀ d ∈ ChunkIndex.search searchMat ChunkIndex.Noop targets, d = 0.0 := by
  constructor
  · simp [ChunkIndex.search, noop_search]
  · intro d hd
    simp only [ChunkIndex.search, noop_search] at hd
    exact (List.eq_of_mem_replicate hd)

/-- Witness for C8 at a concrete non-empty target list. -/
theorem noop_search_zero_witness :
    (["a".toList] : List RStr) ≠ [] ∧
    ((ChunkIndex.search (fun (_ : List Unit) _ => ([] : List Float))
        ChunkIndex.Noop ["a".toList]).length = (["a".toList] : List RStr).length ∧
      ∀ d ∈ ChunkIndex.search (fun (_ : List Unit) _ => ([] : List Float))
        ChunkIndex.Noop ["a".toList], d = 0.0) :=
  ⟨by decide, noop_search_zero (fun _ _ => []) ["a".toList] (by decide)⟩

/-- Claim C10: training on an empty baselines list succeeds with an empty
index map (no empty-baseline error is raised by train itself), and on the
resulting Model get_index returns no Index for every Source. -/
theorem train_empty_baselines {B M : Type}
    (enum_ : Content B → List (Except Err Source)) (keyOf : Source → IndexName)
    (trainIdx : List Source → ChunkIndex M → Except Err (Index M))
    (mk : Unit → ChunkIndex M) (now : Nat) :
    Model.train enum_ keyOf trainIdx mk now [] =
      Except.ok { created_at := now, baselines := [], indexes := [] } ∧
    ∀ src : Source,
      Model.get_index keyOf
        ({ created_at := now, baselines := [], indexes := [] } : Model B M)
        src = none := by
  exact ⟨rfl, fun _ => rfl⟩

/-- Helper: with distinct keys, membership determines the lookup. -/
theorem hmGet_of_mem {K V : Type} [DecidableEq K] :
    ∀ (hm : List (K × V)) (k : K) (v : V),
    (hm.map Prod.fst).Nodup → (k, v) ∈ hm → hmGet hm k = some v := by
  intro hm
  induction hm with
  | nil => intro k v _ hmem; cases hmem
  | cons p rest ih =>
    intro k v hnd hmem
    obtain ⟨k', v'⟩ := p
    rw [List.map_cons, List.nodup_cons] at hnd
    rcases List.mem_cons.mp hmem with heq | hrest
    · rw [Prod.mk.injEq] at heq
      simp [hmGet, heq.1, heq.2]
    · have hk : k' ≠ k := by
        intro hc
        apply hnd.1
        rw [hc]
        exact List.mem_map.mpr ⟨(k, v), hrest, rfl⟩
      simp [hmGet, hk]
      exact ih k v hnd.2 hrest

/-- Claim C4: lookup_or_single (the helper behind Model.get_index) returns
the key's own value when the key is present; with the key absent it returns
the unique value of a singleton map regardless of the key, and nothing when
the map has zero or at least two entries; and Model.get_index is exactly
this lookup at the source's IndexName. -/
theorem lookup_or_single_spec {K V : Type} [DecidableEq K]
    (hm : List (K × V)) (k : K) :
    ((hm.map Prod.fst).Nodup →
      ∀ v : V, (k, v) ∈ hm → lookup_or_single hm k = some v) ∧
    (hmGet hm k = none →
      ∀ p : K × V, hm = [p] → lookup_or_single hm k = some p.2) ∧
    (hmGet hm k = none → hm.length ≠ 1 → lookup_or_single hm k = none) ∧
    (∀ (B M : Type) (keyOf : Source → IndexName) (m : Model B M) (src : Source),
      Model.get_index keyOf m src = lookup_or_single m.indexes (keyOf src)) := by
  refine ⟨?_, ?_, ?_, fun _ _ _ _ _ => rfl⟩
  · intro hnd v hmem
    unfold lookup_or_single
    rw [hmGet_of_mem hm k v hnd hmem]
  · intro hnone p hp
    subst hp
    unfold lookup_or_single
    rw [hnone]
    rfl
  · intro hnone hlen
    unfold lookup_or_single
    rw [hnone]
    match hm, hlen with
    | [], _ => rfl
    | [p], hlen => exact absurd rfl hlen
    | p :: q :: t, _ => rfl

/-- Witness for C4: the three behaviours at concrete maps. -/
theorem lookup_or_single_spec_witness :
    lookup_or_single [(1, 10), (2, 20)] 1 = some 10 ∧
    lookup_or_single [(3, 30)] 7 = some 30 ∧
    lookup_or_single ([] : List (Nat × Nat)) 7 = none :=
  ⟨(lookup_or_single_spec [(1, 10), (2, 20)] 1).1 (by decide) 10 (by decide),
   (lookup_or_single_spec [(3, 30)] 7).2.1 (by decide) (3, 30) rfl,
   (lookup_or_single_spec ([] : List (Nat × Nat)) 7).2.2.1 rfl (by decide)⟩

/-- Helper: lifting a typed result never panics. -/
theorem liftE_not_panic {α : Type} (r : Except Err α) :
    (liftE r).isPanic = false := by
  cases r <;> rfl

/-- Helper: on a source whose relative identity computes without the slice
panic, the full model of get_index is the non-panicking keyOf abstraction
used by the other claims. -/
theorem get_index_full_agrees {B M : Type} (from_path : RStr → IndexName)
    (keyOf : Source → IndexName) (m : Model B M) (src : Source) (rel : RStr)
    (hrel : src.get_relative = some rel) (hkey : keyOf src = from_path rel) :
    Model.get_index_full from_path m src =
      POutcome.ok (Model.get_index keyOf m src) := by
  simp [Model.get_index_full, IndexName.from_source, hrel, Model.get_index, hkey]

/-- Helper: a panic inside the report loop comes from a source whose
relative-identity slice panics inside the index lookup, or whose index
lookup finds nothing. -/
theorem reportGo_full_panic_mem {B M O : Type} (fileOpen : RStr → Except Err O)
    (urlOpen : Nat → RStr → Except Err O)
    (procC : O → ChunkIndex M → List (Except Err AnomalyContext))
    (from_path : RStr → IndexName) (m : Model B M) :
    ∀ (srcs : List Source) (acc : List LogReport),
    (reportGo_full fileOpen urlOpen procC from_path m srcs acc).isPanic = true →
    ∃ s ∈ srcs, IndexName.from_source from_path s = none ∨
      Model.get_index_full from_path m s = POutcome.ok none := by
  intro srcs
  induction srcs with
  | nil => intro acc h; simp [reportGo_full, POutcome.isPanic] at h
  | cons s rest ih =>
    intro acc h
    cases hfs : IndexName.from_source from_path s with
    | none => exact ⟨s, List.mem_cons_self s rest, Or.inl hfs⟩
    | some nm =>
      cases hlk : lookup_or_single m.indexes nm with
      | none =>
        refine ⟨s, List.mem_cons_self s rest, Or.inr ?_⟩
        simp [Model.get_index_full, hfs, hlk]
      | some idx =>
        have hgi : Model.get_index_full from_path m s =
            POutcome.ok (some idx) := by
          simp [Model.get_index_full, hfs, hlk]
        cases hcol : collectExcept (Index.inspect fileOpen urlOpen procC idx s) with
        | error e =>
          simp only [reportGo_full, hgi, hcol, POutcome.isPanic] at h
          exact (Bool.false_ne_true h).elim
        | ok anomalies =>
          simp only [reportGo_full, hgi, hcol] at h
          obtain ⟨s', hs', hc⟩ := ih _ h
          exact ⟨s', List.mem_cons_of_mem s hs', hc⟩

/-- Claim C2 (amended): Content.from_input panics exactly when the input is
a Url whose string the url parser rejects, and every panic of Model.report
comes from a target Source whose relative-identity slice panics inside the
index lookup (prefix length out of range in get_relative, reached through
IndexName.from_source) or for which get_index finds no Index; under the
negations of these conditions — well-formed URL, the prefix-length validity
invariant on every target Source, and an Index resolvable for every target
Source — no panic branch of these operations is reachable. -/
theorem panic_conditions_full :
    (∀ (B : Type) (fromPath fromUrl : RStr → Except Err (Content B))
      (parseUrl : RStr → Option RStr) (input : Input),
      (Content.from_input fromPath fromUrl parseUrl input).isPanic = true ↔
        ∃ s, input = Input.Url s ∧ parseUrl s = none) ∧
    (∀ (B M O : Type) (fileOpen : RStr → Except Err O)
      (urlOpen : Nat → RStr → Except Err O)
      (procC : O → ChunkIndex M → List (Except Err AnomalyContext))
      (enum_ : Content B → List (Except Err Source))
      (from_path : RStr → IndexName) (m : Model B M) (target : Content B),
      (Model.report_full fileOpen urlOpen procC enum_ from_path m target).isPanic
          = true →
        ∃ srcs, get_sources enum_ target = Except.ok srcs ∧
          ∃ s ∈ srcs, IndexName.from_source from_path s = none ∨
            Model.get_index_full from_path m s = POutcome.ok none) := by
  constructor
  · intro B fromPath fromUrl parseUrl input
    constructor
    · intro h
      cases input with
      | Path p =>
        rw [show Content.from_input fromPath fromUrl parseUrl (Input.Path p) =
          liftE (fromPath p) from rfl, liftE_not_panic] at h
        cases h
      | Url u =>
        cases hp : parseUrl u with
        | none => exact ⟨u, rfl, hp⟩
        | some v =>
          simp only [Content.from_input, hp, liftE_not_panic] at h
          exact (Bool.false_ne_true h).elim
    · rintro ⟨s, rfl, hp⟩
      simp only [Content.from_input, hp]
      rfl
  · intro B M O fileOpen urlOpen procC enum_ from_path m target h
    unfold Model.report_full at h
    cases hs : get_sources enum_ target with
    | error e => rw [hs] at h; cases h
    | ok srcs =>
      rw [hs] at h
      exact ⟨srcs, rfl,
        reportGo_full_panic_mem fileOpen urlOpen procC from_path m srcs [] h⟩

/-- Witness for C2: a malformed-Url panic, and a report panic traced to a
source whose index lookup finds nothing. -/
theorem panic_conditions_full_witness :
    (Content.from_input (fun _ => Except.error "e")
        (fun (_ : RStr) => (Except.error "e" : Except Err (Content Unit)))
        (fun _ => none) (Input.Url ['x'])).isPanic = true ∧
    ∃ srcs,
      get_sources (fun (_ : Content Unit) => [Except.ok (Source.Local 0 ['a'])])
          (Content.File (Source.Local 0 ['a'])) = Except.ok srcs ∧
      ∃ s ∈ srcs,
        IndexName.from_source (fun r => ⟨r⟩) s = none ∨
        Model.get_index_full (fun r => ⟨r⟩)
          ({ created_at := 0, baselines := [],
             indexes := [] } : Model Unit Unit) s = POutcome.ok none := by
  constructor
  · exact (panic_conditions_full.1 Unit (fun _ => Except.error "e")
      (fun _ => Except.error "e") (fun _ => none) (Input.Url ['x'])).mpr
      ⟨['x'], rfl, rfl⟩
  · exact panic_conditions_full.2 Unit Unit Unit (fun _ => Except.error "o")
      (fun _ _ => Except.error "o") (fun _ _ => [])
      (fun _ => [Except.ok (Source.Local 0 ['a'])]) (fun r => ⟨r⟩)
      { created_at := 0, baselines := [], indexes := [] }
      (Content.File (Source.Local 0 ['a'])) rfl

/-- Counterexample to claim C2 as stated: the target source Local 5 "ab"
has an out-of-range prefix length, so report dies in the relative-identity
slice inside the index lookup — a third panic distinct from the two claimed
conditions — even though the model holds exactly one Index, which
lookup_or_single resolves for every possible IndexName (so "an Index
resolvable for every target Source" holds, yet a panic branch of report is
reachable, and the panic is not the missing-index one). -/
theorem report_slice_panic_cex :
    Model.report_full
        (fun (_ : RStr) => (Except.ok () : Except Err Unit))
        (fun _ _ => Except.ok ())
        (fun (_ : Unit) (_ : ChunkIndex Unit) => [])
        (fun (_ : Content Unit) => [Except.ok (Source.Local 5 "ab".toList)])
        (fun r => ⟨r⟩)
        ({ created_at := 0, baselines := [],
           indexes := [(⟨['k']⟩, ⟨0, ChunkIndex.Noop⟩)] } : Model Unit Unit)
        (Content.File (Source.Local 5 "ab".toList)) =
      POutcome.panicked "byte index out of bounds" ∧
    ∀ nm : IndexName,
      lookup_or_single
        ([(⟨['k']⟩, ⟨0, ChunkIndex.Noop⟩)] : List (IndexName × Index Unit)) nm =
        some ⟨0, ChunkIndex.Noop⟩ := by
  constructor
  · rfl
  · intro nm
    by_cases h : (⟨['k']⟩ : IndexName) = nm
    · simp [lookup_or_single, hmGet, h]
    · simp [lookup_or_single, hmGet, h]

/-- Claim C1 (amended): a failure opening a target Source surfaces as the
single error element of that Source's own inspect sequence, but
Model.report then propagates it as a typed error and aborts: when the
first target Source fails to open, report returns that error and the
remaining target Sources are never processed. -/
theorem report_open_error_aborts {B M O : Type} (fileOpen : RStr → Except Err O)
    (urlOpen : Nat → RStr → Except Err O)
    (procC : O → ChunkIndex M → List (Except Err AnomalyContext))
    (enum_ : Content B → List (Except Err Source)) (keyOf : Source → IndexName)
    (m : Model B M) (target : Content B) (s : Source) (rest : List Source)
    (idx : Index M) (e : Err)
    (hsrc : get_sources enum_ target = Except.ok (s :: rest))
    (hidx : Model.get_index keyOf m s = some idx)
    (hopen : sourceOpen fileOpen urlOpen s = Except.error e) :
    Index.inspect fileOpen urlOpen procC idx s = [Except.error e] ∧
    Model.report fileOpen urlOpen procC enum_ keyOf m target = POutcome.err e := by
  have hins := inspect_of_open_error fileOpen urlOpen procC idx s e hopen
  refine ⟨hins, ?_⟩
  have hcol : collectExcept (Index.inspect fileOpen urlOpen procC idx s) =
      Except.error e := by rw [hins]; rfl
  simp only [Model.report, hsrc, reportGo, hidx, hcol]

/-- Witness for C1's amended theorem: two target sources, the first fails
to open, report aborts with that error. -/
theorem report_open_error_aborts_witness :
    get_sources
        (fun (_ : Content Unit) =>
          [Except.ok (Source.Local 0 ['a']), Except.ok (Source.Local 0 ['b'])])
        (Content.File (Source.Local 0 ['a'])) =
      Except.ok [Source.Local 0 ['a'], Source.Local 0 ['b']] ∧
    Model.get_index (fun _ => ⟨[]⟩)
        ({ created_at := 0, baselines := [],
           indexes := [(⟨[]⟩, ⟨0, ChunkIndex.Noop⟩)] } : Model Unit Unit)
        (Source.Local 0 ['a']) = some ⟨0, ChunkIndex.Noop⟩ ∧
    sourceOpen
        (fun (p : RStr) =>
          if p = ['a'] then (Except.error "open failed" : Except Err Unit)
          else Except.ok ())
        (fun _ _ => Except.ok ()) (Source.Local 0 ['a']) =
      Except.error "open failed" ∧
    Model.report
        (fun (p : RStr) =>
          if p = ['a'] then (Except.error "open failed" : Except Err Unit)
          else Except.ok ())
        (fun _ _ => Except.ok ())
        (fun (_ : Unit) (_ : ChunkIndex Unit) => [Except.ok ⟨[], ⟨1.0, 0, ['x']⟩, []⟩])
        (fun (_ : Content Unit) =>
          [Except.ok (Source.Local 0 ['a']), Except.ok (Source.Local 0 ['b'])])
        (fun _ => ⟨[]⟩)
        ({ created_at := 0, baselines := [],
           indexes := [(⟨[]⟩, ⟨0, ChunkIndex.Noop⟩)] } : Model Unit Unit)
        (Content.File (Source.Local 0 ['a'])) = POutcome.err "open failed" :=
  ⟨rfl, rfl, rfl,
    (report_open_error_aborts
      (fun p => if p = ['a'] then Except.error "open failed" else Except.ok ())
      (fun _ _ => Except.ok ())
      (fun (_ : Unit) (_ : ChunkIndex Unit) => [Except.ok ⟨[], ⟨1.0, 0, ['x']⟩, []⟩])
      (fun _ => [Except.ok (Source.Local 0 ['a']), Except.ok (Source.Local 0 ['b'])])
      (fun _ => ⟨[]⟩)
      { created_at := 0, baselines := [],
        indexes := [(⟨[]⟩, ⟨0, ChunkIndex.Noop⟩)] }
      (Content.File (Source.Local 0 ['a']))
      (Source.Local 0 ['a']) [Source.Local 0 ['b']]
      ⟨0, ChunkIndex.Noop⟩ "open failed" rfl rfl rfl).2⟩

/-- Counterexample to claim C1 as stated: with two target sources where
only the first fails to open and the second would inspect successfully
with an anomaly, report aborts with the typed open error — it produces no
Report at all, so the second source's successful results never appear
alongside the first source's error. -/
theorem report_continues_after_open_error_cex :
    Model.report
        (fun (p : RStr) =>
          if p = ['a'] then (Except.error "open failed" : Except Err Unit)
          else Except.ok ())
        (fun _ _ => Except.ok ())
        (fun (_ : Unit) (_ : ChunkIndex Unit) => [Except.ok ⟨[], ⟨1.0, 0, ['x']⟩, []⟩])
        (fun (_ : Content Unit) =>
          [Except.ok (Source.Local 0 ['a']), Except.ok (Source.Local 0 ['b'])])
        (fun _ => ⟨[]⟩)
        ({ created_at := 0, baselines := [],
           indexes := [(⟨[]⟩, ⟨0, ChunkIndex.Noop⟩)] } : Model Unit Unit)
        (Content.File (Source.Local 0 ['a'])) = POutcome.err "open failed" ∧
    collectExcept
        (Index.inspect
          (fun (p : RStr) =>
            if p = ['a'] then (Except.error "open failed" : Except Err Unit)
            else Except.ok ())
          (fun _ _ => Except.ok ())
          (fun (_ : Unit) (_ : ChunkIndex Unit) => [Except.ok ⟨[], ⟨1.0, 0, ['x']⟩, []⟩])
          (⟨0, ChunkIndex.Noop⟩ : Index Unit) (Source.Local 0 ['b'])) =
      Except.ok [⟨[], ⟨1.0, 0, ['x']⟩, []⟩] :=
  ⟨rfl, rfl⟩

/-- Helper: pushing into the key's own group appends the source. -/
theorem hmGet_pushGroup_self (gs : Groups) (k : IndexName) (s : Source) :
    hmGet (pushGroup gs k s) k = some (groupGet gs k ++ [s]) := by
  induction gs with
  | nil => simp [pushGroup, hmGet, groupGet]
  | cons p rest ih =>
    obtain ⟨k', l⟩ := p
    by_cases h : k' = k
    · subst h
      simp [pushGroup, hmGet, groupGet]
    · simp [pushGroup, hmGet, h, groupGet, ih]

/-- Helper: pushing into another key's group leaves a group unchanged. -/
theorem hmGet_pushGroup_ne (gs : Groups) (k : IndexName) (s : Source)
    (g : IndexName) (h : g ≠ k) :
    hmGet (pushGroup gs k s) g = hmGet gs g := by
  induction gs with
  | nil =>
    have hk : k ≠ g := fun hc => h hc.symm
    simp [pushGroup, hmGet, hk]
  | cons p rest ih =>
    obtain ⟨k', l⟩ := p
    by_cases hk : k' = k
    · subst hk
      have : k' ≠ g := fun hc => h hc.symm
      simp [pushGroup, hmGet, this]
    · by_cases hg : k' = g
      · subst hg
        simp [pushGroup, hmGet, hk]
      · simp [pushGroup, hmGet, hk, hg, ih]

/-- Helper: pushing keeps the key list or appends the fresh key at the end. -/
theorem keys_pushGroup (gs : Groups) (k : IndexName) (s : Source) :
    (pushGroup gs k s).map Prod.fst = gs.map Prod.fst ∨
    ((pushGroup gs k s).map Prod.fst = gs.map Prod.fst ++ [k] ∧
      k ∉ gs.map Prod.fst) := by
  induction gs with
  | nil => right; simp [pushGroup]
  | cons p rest ih =>
    obtain ⟨k', l⟩ := p
    by_cases h : k' = k
    · left
      subst h
      simp [pushGroup]
    · rcases ih with h1 | ⟨h1, h2⟩
      · left
        simp [pushGroup, h, h1]
      · right
        constructor
        · simp [pushGroup, h, h1]
        · simp only [List.map_cons, List.mem_cons]
          rintro (hc | hc)
          · exact h hc.symm
          · exact h2 hc

/-- Helper: pushing preserves distinctness of the group keys. -/
theorem nodup_keys_pushGroup (gs : Groups) (k : IndexName) (s : Source)
    (h : (gs.map Prod.fst).Nodup) :
    ((pushGroup gs k s).map Prod.fst).Nodup := by
  rcases keys_pushGroup gs k s with h1 | ⟨h1, h2⟩
  · rw [h1]; exact h
  · rw [h1]
    rw [List.nodup_append]
    exact ⟨h, List.nodup_singleton k, by simpa using h2⟩

/-- Helper: pushing preserves non-emptiness of every group. -/
theorem nonempty_pushGroup (gs : Groups) (k : IndexName) (s : Source)
    (h : ∀ p ∈ gs, p.2 ≠ []) :
    ∀ p ∈ pushGroup gs k s, p.2 ≠ [] := by
  induction gs with
  | nil =>
    intro p hp
    have hps : p = (k, [s]) := by simpa [pushGroup] using hp
    subst hps
    simp
  | cons q rest ih =>
    obtain ⟨k', l⟩ := q
    by_cases hk : k' = k
    · subst hk
      intro p hp
      simp only [pushGroup, eq_self_iff_true, if_true, List.mem_cons] at hp
      rcases hp with hp | hp
      · subst hp
        simp
      · exact h p (List.mem_cons_of_mem _ hp)
    · intro p hp
      simp only [pushGroup, if_neg hk, List.mem_cons] at hp
      rcases hp with hp | hp
      · subst hp
        exact h (k', l) (List.mem_cons_self _ _)
      · exact ih (fun q hq => h q (List.mem_cons_of_mem _ hq)) p hp

/-- Helper: folding a source list into the grouping appends, per group,
exactly the sources whose key is that group, in order. -/
theorem groupGet_groupInto (keyOf : Source → IndexName) (srcs : List Source) :
    ∀ (acc : Groups) (g : IndexName),
    groupGet (groupInto keyOf acc srcs) g =
      groupGet acc g ++ srcs.filter (fun s => decide (keyOf s = g)) := by
  induction srcs with
  | nil => intro acc g; simp [groupInto]
  | cons s ss ih =>
    intro acc g
    have hstep : groupInto keyOf acc (s :: ss) =
        groupInto keyOf (pushGroup acc (keyOf s) s) ss := rfl
    rw [hstep, ih]
    by_cases h : keyOf s = g
    · rw [groupGet, ← h, hmGet_pushGroup_self]
      simp [List.filter_cons, h]
    · rw [groupGet, hmGet_pushGroup_ne acc (keyOf s) s g (fun hc => h hc.symm)]
      simp [groupGet, List.filter_cons, h]

/-- Helper: folding preserves distinctness of the group keys. -/
theorem nodup_keys_groupInto (keyOf : Source → IndexName) (srcs : List Source) :
    ∀ acc : Groups, (acc.map Prod.fst).Nodup →
    ((groupInto keyOf acc srcs).map Prod.fst).Nodup := by
  induction srcs with
  | nil => intro acc h; exact h
  | cons s ss ih =>
    intro acc h
    exact ih (pushGroup acc (keyOf s) s) (nodup_keys_pushGroup acc (keyOf s) s h)

/-- Helper: folding preserves non-emptiness of every group. -/
theorem nonempty_groupInto (keyOf : Source → IndexName) (srcs : List Source) :
    ∀ acc : Groups, (∀ p ∈ acc, p.2 ≠ []) →
    ∀ p ∈ groupInto keyOf acc srcs, p.2 ≠ [] := by
  induction srcs with
  | nil => intro acc h; exact h
  | cons s ss ih =>
    intro acc h
    exact ih (pushGroup acc (keyOf s) s) (nonempty_pushGroup acc (keyOf s) s h)

/-- Helper: the grouping loop, related to the flat source list. -/
theorem group_sourcesAux_spec {B : Type}
    (enum_ : Content B → List (Except Err Source)) (keyOf : Source → IndexName) :
    ∀ (cs : List (Content B)) (acc gs : Groups),
    group_sourcesAux enum_ keyOf cs acc = Except.ok gs →
    ∃ all, contentsSources enum_ cs = Except.ok all ∧
      (∀ g, groupGet gs g =
        groupGet acc g ++ all.filter (fun s => decide (keyOf s = g))) ∧
      ((acc.map Prod.fst).Nodup → (gs.map Prod.fst).Nodup) ∧
      ((∀ p ∈ acc, p.2 ≠ []) → ∀ p ∈ gs, p.2 ≠ []) := by
  intro cs
  induction cs with
  | nil =>
    intro acc gs h
    simp only [group_sourcesAux] at h
    cases h
    exact ⟨[], rfl, fun g => by simp, fun h0 => h0, fun h0 => h0⟩
  | cons c cs ih =>
    intro acc gs h
    cases hg : get_sources enum_ c with
    | error e =>
      simp only [group_sourcesAux, hg] at h
      exact Except.noConfusion h
    | ok srcs =>
      simp only [group_sourcesAux, hg] at h
      obtain ⟨all, hall, hget, hnd, hne⟩ := ih (groupInto keyOf acc srcs) gs h
      refine ⟨srcs ++ all, ?_, ?_, ?_, ?_⟩
      · simp [contentsSources, hg, hall]
      · intro g
        rw [hget g, groupGet_groupInto, List.filter_append, List.append_assoc]
      · intro h0
        exact hnd (nodup_keys_groupInto keyOf srcs acc h0)
      · intro h0
        exact hne (nonempty_groupInto keyOf srcs acc h0)

/-- Claim C5: when group_sources succeeds on a list of baseline Contents,
the result is a strict partition of all produced Sources: the group keys
are distinct, each group holds exactly the produced Sources whose IndexName
is that key, in overall encounter order, and no group is empty (so every
produced Source lies in exactly one group and the groups' multiset union is
the full source multiset). -/
theorem group_sources_partition {B : Type}
    (enum_ : Content B → List (Except Err Source)) (keyOf : Source → IndexName)
    (baselines : List (Content B)) (gs : Groups)
    (h : Content.group_sources enum_ keyOf baselines = Except.ok gs) :
    ∃ all, contentsSources enum_ baselines = Except.ok all ∧
      (gs.map Prod.fst).Nodup ∧
      (∀ g, groupGet gs g = all.filter (fun s => decide (keyOf s = g))) ∧
      (∀ p ∈ gs, p.2 ≠ []) := by
  obtain ⟨all, h1, h2, h3, h4⟩ :=
    group_sourcesAux_spec enum_ keyOf baselines [] gs h
  refine ⟨all, h1, h3 (by simp), fun g => ?_, h4 (by simp)⟩
  have := h2 g
  simpa [groupGet, hmGet] using this

/-- Witness for C5 at a concrete pair of sources grouped by full path. -/
theorem group_sources_partition_witness :
    Content.group_sources
        (fun (_ : Content Unit) =>
          [Except.ok (Source.Local 0 ['a']), Except.ok (Source.Local 0 ['b'])])
        (fun s => ⟨s.as_str⟩) [Content.File (Source.Local 0 ['a'])] =
      Except.ok [(⟨['a']⟩, [Source.Local 0 ['a']]), (⟨['b']⟩, [Source.Local 0 ['b']])] ∧
    ∃ all,
      contentsSources
          (fun (_ : Content Unit) =>
            [Except.ok (Source.Local 0 ['a']), Except.ok (Source.Local 0 ['b'])])
          [Content.File (Source.Local 0 ['a'])] = Except.ok all ∧
      (([(⟨['a']⟩, [Source.Local 0 ['a']]),
         (⟨['b']⟩, [Source.Local 0 ['b']])] : Groups).map Prod.fst).Nodup ∧
      (∀ g, groupGet [(⟨['a']⟩, [Source.Local 0 ['a']]),
          (⟨['b']⟩, [Source.Local 0 ['b']])] g =
        all.filter (fun s => decide ((⟨s.as_str⟩ : IndexName) = g))) ∧
      (∀ p ∈ ([(⟨['a']⟩, [Source.Local 0 ['a']]),
          (⟨['b']⟩, [Source.Local 0 ['b']])] : Groups), p.2 ≠ []) :=
  ⟨rfl,
    group_sources_partition
      (fun _ => [Except.ok (Source.Local 0 ['a']), Except.ok (Source.Local 0 ['b'])])
      (fun s => ⟨s.as_str⟩) [Content.File (Source.Local 0 ['a'])]
      [(⟨['a']⟩, [Source.Local 0 ['a']]), (⟨['b']⟩, [Source.Local 0 ['b']])] rfl⟩

/-- Helper: decoding a counted sequence of encoded elements. -/
theorem decListN_enc {α : Type} (encA : α → Toks)
    (decA : Toks → Option (α × Toks))
    (hA : ∀ a rest, decA (encA a ++ rest) = some (a, rest)) :
    ∀ (l : List α) (rest : Toks),
    decListN decA l.length ((l.map encA).flatten ++ rest) = some (l, rest) := by
  intro l
  induction l with
  | nil => intro rest; simp [decListN]
  | cons a t ih =>
    intro rest
    rw [List.map_cons, List.flatten_cons, List.append_assoc]
    simp only [List.length_cons, decListN, hA, ih]

/-- Helper: decoding a length-prefixed encoded list. -/
theorem decListT_enc {α : Type} (encA : α → Toks)
    (decA : Toks → Option (α × Toks))
    (hA : ∀ a rest, decA (encA a ++ rest) = some (a, rest)) :
    ∀ (l : List α) (rest : Toks),
    decListT decA (encListT encA l ++ rest) = some (l, rest) := by
  intro l rest
  rw [encListT]
  show decListT decA (Tok.nat l.length :: ((l.map encA).flatten ++ rest)) = _
  rw [decListT]
  exact decListN_enc encA decA hA l rest

/-- Helper: the Source codec round-trips. -/
theorem decSource_enc : ∀ (s : Source) (rest : Toks),
    decSource (encSource s ++ rest) = some (s, rest) := by
  intro s rest
  cases s <;> rfl

/-- Helper: the Content codec round-trips, given a Build codec that does. -/
theorem decContent_enc {B : Type} (encB : B → Toks)
    (decB : Toks → Option (B × Toks))
    (hB : ∀ b rest, decB (encB b ++ rest) = some (b, rest)) :
    ∀ (c : Content B) (rest : Toks),
    decContent decB (encContent encB c ++ rest) = some (c, rest) := by
  intro c rest
  cases c with
  | File s =>
    show decContent decB (Tok.nat 0 :: (encSource s ++ rest)) = _
    rw [decContent, decSource_enc]
  | Directory s =>
    show decContent decB (Tok.nat 1 :: (encSource s ++ rest)) = _
    rw [decContent, decSource_enc]
  | Zuul b =>
    show decContent decB (Tok.nat 2 :: (encB b ++ rest)) = _
    rw [decContent, hB]

/-- Helper: the ChunkIndex codec round-trips, given a matrix codec that
does. -/
theorem decChunkIndex_enc {M : Type} (encM : M → Toks)
    (decM : Toks → Option (M × Toks))
    (hM : ∀ x rest, decM (encM x ++ rest) = some (x, rest)) :
    ∀ (ci : ChunkIndex M) (rest : Toks),
    decChunkIndex decM (encChunkIndex encM ci ++ rest) = some (ci, rest) := by
  intro ci rest
  cases ci with
  | HashingTrick ms =>
    show decChunkIndex decM (Tok.nat 0 :: (encListT encM ms ++ rest)) = _
    rw [decChunkIndex, decListT_enc encM decM hM]
  | Noop => rfl

/-- Helper: the Index codec round-trips. -/
theorem decIndex_enc {M : Type} (encM : M → Toks)
    (decM : Toks → Option (M × Toks))
    (hM : ∀ x rest, decM (encM x ++ rest) = some (x, rest)) :
    ∀ (i : Index M) (rest : Toks),
    decIndex decM (encIndex encM i ++ rest) = some (i, rest) := by
  intro i rest
  obtain ⟨t, ci⟩ := i
  show decIndex decM (Tok.nat t :: (encChunkIndex encM ci ++ rest)) = _
  rw [decIndex, decChunkIndex_enc encM decM hM]

/-- Helper: the map-entry codec round-trips. -/
theorem decEntry_enc {M : Type} (encM : M → Toks)
    (decM : Toks → Option (M × Toks))
    (hM : ∀ x rest, decM (encM x ++ rest) = some (x, rest)) :
    ∀ (e : IndexName × Index M) (rest : Toks),
    decEntry decM (encEntry encM e ++ rest) = some (e, rest) := by
  intro e rest
  obtain ⟨⟨nm⟩, i⟩ := e
  show decEntry decM (Tok.str nm :: (encIndex encM i ++ rest)) = _
  rw [decEntry, decIndex_enc encM decM hM]

/-- Helper: the Model codec round-trips. -/
theorem decModel_enc {B M : Type} (encB : B → Toks)
    (decB : Toks → Option (B × Toks)) (encM : M → Toks)
    (decM : Toks → Option (M × Toks))
    (hB : ∀ b rest, decB (encB b ++ rest) = some (b, rest))
    (hM : ∀ x rest, decM (encM x ++ rest) = some (x, rest)) :
    ∀ (m : Model B M) (rest : Toks),
    decModel decB decM (encModel encB encM m ++ rest) = some (m, rest) := by
  intro m rest
  obtain ⟨t, bs, idxs⟩ := m
  show decModel decB decM (Tok.nat t ::
    ((encListT (encContent encB) bs ++ encListT (encEntry encM) idxs) ++ rest)) = _
  simp only [decModel, List.append_assoc,
    decListT_enc (encContent encB) (decContent decB) (decContent_enc encB decB hB),
    decListT_enc (encEntry encM) (decEntry decM) (decEntry_enc encM decM hM)]

/-- Claim C9: save followed by load from the same path succeeds and yields
the very Model that was saved — in particular its index map and therefore
the search output of every Index on any fixed input lines are identical —
provided the external collaborators honour their contracts (the compressor
inverts the decompressor and the Build/matrix codecs round-trip). -/
theorem save_load_roundtrip {B M Bytes : Type} (gz : Toks → Bytes)
    (gunz : Bytes → Option Toks) (encB : B → Toks)
    (decB : Toks → Option (B × Toks)) (encM : M → Toks)
    (decM : Toks → Option (M × Toks)) (store : Store Bytes) (path : RStr)
    (m : Model B M)
    (hgz : ∀ ts, gunz (gz ts) = some ts)
    (hB : ∀ b rest, decB (encB b ++ rest) = some (b, rest))
    (hM : ∀ x rest, decM (encM x ++ rest) = some (x, rest)) :
    Model.load gunz decB decM (Model.save gz encB encM m store path) path =
      Except.ok m ∧
    ∀ m' : Model B M,
      Model.load gunz decB decM (Model.save gz encB encM m store path) path =
        Except.ok m' →
      m'.indexes = m.indexes ∧
      ∀ (searchMat : List M → List RStr → List Float) (nm : IndexName)
        (ts : List RStr),
        (hmGet m'.indexes nm).map (fun i => ChunkIndex.search searchMat i.index ts) =
        (hmGet m.indexes nm).map (fun i => ChunkIndex.search searchMat i.index ts) := by
  have hload : Model.load gunz decB decM (Model.save gz encB encM m store path)
      path = Except.ok m := by
    have h1 : hmGet ((path, gz (encModel encB encM m)) :: store) path =
        some (gz (encModel encB encM m)) := by simp [hmGet]
    have h2 : decModel decB decM (encModel encB encM m) = some (m, []) := by
      have h3 := decModel_enc encB decB encM decM hB hM m []
      rwa [List.append_nil] at h3
    simp only [Model.load, Model.save, h1, hgz, h2]
  refine ⟨hload, fun m' hm' => ?_⟩
  rw [hload] at hm'
  cases hm'
  exact ⟨rfl, fun _ _ _ => rfl⟩

/-- Witness for C9 with trivial external codecs and a one-entry model. -/
theorem save_load_roundtrip_witness :
    Model.load (fun ts => some ts)
        (fun ts => some ((), ts)) (fun ts => some ((), ts))
        (Model.save (fun ts => ts) (fun (_ : Unit) => []) (fun (_ : Unit) => [])
          ({ created_at := 5,
             baselines := [Content.File (Source.Local 0 ['a'])],
             indexes := [(⟨['a']⟩, ⟨3, ChunkIndex.Noop⟩)] } : Model Unit Unit)
          [] ['p']) ['p'] =
      Except.ok
        ({ created_at := 5,
           baselines := [Content.File (Source.Local 0 ['a'])],
           indexes := [(⟨['a']⟩, ⟨3, ChunkIndex.Noop⟩)] } : Model Unit Unit) :=
  (save_load_roundtrip (fun ts => ts) (fun ts => some ts)
    (fun _ => []) (fun ts => some ((), ts))
    (fun _ => []) (fun ts => some ((), ts)) [] ['p']
    { created_at := 5,
      baselines := [Content.File (Source.Local 0 ['a'])],
      indexes := [(⟨['a']⟩, ⟨3, ChunkIndex.Noop⟩)] }
    (fun _ => rfl) (fun _ _ => rfl) (fun _ _ => rfl)).1

end Logreduce
